import Mathlib

/-!
Shallow embedding of the CAP-style misfit evaluator of `mtuq`
(`mtuq/misfit/cap.py`) together with its fast cross-correlation utility
(`mtuq/util/math.py`), and proofs about them.

Sample values, sampling intervals and weights are modelled as rationals
(the Python code computes with floating point); the norm order `p` is
modelled as a natural-number exponent (the code uses it as `**p`, and the
final `** (1/p)` root is expressed in the theorems via real-number
exponentiation).  Fallible Python operations are modelled with `Except`.
-/

namespace Mtuq

/-- Python `round` on a rational: round half to even (banker's rounding). -/
def pythonRound (q : ℚ) : ℤ :=
  if q - ⌊q⌋ < 1/2 then ⌊q⌋
  else if q - ⌊q⌋ > 1/2 then ⌊q⌋ + 1
  else if ⌊q⌋ % 2 = 0 then ⌊q⌋ else ⌊q⌋ + 1

/-- `np.zeros n`. -/
def zeros (n : ℕ) : List ℚ := List.replicate n 0

/-- Elementwise sum of two numpy arrays (the `result += ...` accumulations);
defined on the common length (the evaluator only ever adds arrays of equal
length, where numpy broadcasting is the identity). -/
def vecAdd (a b : List ℚ) : List ℚ := List.zipWith (· + ·) a b

/-- Elementwise difference of two numpy arrays. -/
def vecSub (a b : List ℚ) : List ℚ := List.zipWith (· - ·) a b

/-- Python slice `l[a:b]` for nonnegative bounds (out-of-range bounds clamp,
as in Python; negative-index wraparound is not modelled — the bounds the
evaluator produces are proved nonnegative below). -/
def pySlice (l : List ℚ) (a b : ℤ) : List ℚ := (l.take b.toNat).drop a.toNat

/-- `np.correlate(v1, v2, 'valid')` in the regime `len v1 ≤ len v2` used by
the code: numpy swaps the arguments and reverses the result when the first
array is the shorter one, so entry `k` is `Σ_i v1[i] * v2[i + (n2-n1) - k]`. -/
def npCorrelateValid (v1 v2 : List ℚ) : List ℚ :=
  (List.range (v2.length - v1.length + 1)).map (fun k =>
    ((List.range v1.length).map (fun i =>
      v1.getD i 0 * v2.getD (i + (v2.length - v1.length) - k) 0)).sum)

/-- Full discrete convolution, `c[k] = Σ_i a[i] * b[k-i]`. -/
def fullConv (a b : List ℚ) : List ℚ :=
  (List.range (a.length + b.length - 1)).map (fun k =>
    ((List.range a.length).map (fun i =>
      if i ≤ k ∧ k - i < b.length then a.getD i 0 * b.getD (k - i) 0 else 0)).sum)

/-- `scipy.signal.fftconvolve(a, b, 'valid')`: the central slice of the full
convolution, of length `max - min + 1` (exact arithmetic stands in for the
FFT floating-point algorithm). -/
def fftconvolveValid (a b : List ℚ) : List ℚ :=
  ((fullConv a b).drop (min a.length b.length - 1)).take
    (max a.length b.length - min a.length b.length + 1)

/-- `mtuq.util.math.correlate`: cross-correlation of unpadded `v1` against
padded `v2`, switching to the frequency-domain algorithm for long traces
(`n1 > 2000`) or long lag ranges (`n2 - n1 > 200`). -/
def correlate (v1 v2 : List ℚ) : List ℚ :=
  if v1.length > 2000 ∨ v2.length - v1.length > 200 then
    fftconvolveValid v1 v2.reverse
  else
    npCorrelateValid v1 v2

/-- Maximum entry of a numpy array (`0` for the empty array, which numpy
itself rejects). -/
def npMax : List ℚ → ℚ
  | [] => 0
  | x :: xs => xs.foldl max x

/-- `np.argmax`: index of the first occurrence of the maximum value. -/
def argmax (l : List ℚ) : ℕ := l.findIdx (fun x => decide (x = npMax l))

/-- The component letter of a trace: `stats.channel[-1].upper()`.  (Python
raises on an empty channel code; the placeholder `'?'` is not a valid
component, so an empty channel simply never matches a group.) -/
def component (channel : String) : Char := (channel.toList.getLastD '?').toUpper

/-- An observed single-component waveform (one obspy trace of a `data`
stream).  Besides the fields the evaluator reads (samples, sampling
interval `delta`, channel code, optional `weight` attribute), it carries
the optional dynamic attributes Python objects can hold; the evaluator
writes only `sum_residuals` on observed traces. -/
structure ObsTrace where
  data : List ℚ
  delta : ℚ
  channel : String
  weight : Option ℚ := none
  sum_residuals : Option ℚ := none
  time_shift : Option ℚ := none
  time_shift_group : Option String := none
  start : Option ℤ := none
  stop : Option ℤ := none
deriving Repr, DecidableEq

/-- A synthetic single-component waveform.  The evaluator writes
`time_shift`, `time_shift_group`, `start`, `stop` on synthetic traces. -/
structure SynTrace where
  data : List ℚ
  time_shift : Option ℚ := none
  time_shift_group : Option String := none
  start : Option ℤ := none
  stop : Option ℤ := none
deriving Repr, DecidableEq

/-- A station observation set: its traces plus the dynamically attached
`time_shift_mode` attribute (absent before the first evaluation). -/
structure ObsStation where
  traces : List ObsTrace
  time_shift_mode : Option ℕ := none
deriving Repr, DecidableEq

/-- The misfit configuration stored by `Misfit.__init__`. -/
structure Misfit where
  order : ℕ := 1
  polarity_weight : ℚ := 0
  time_shift_groups : List String := ["ZRT"]
  time_shift_max : ℚ := 0
deriving Repr, DecidableEq

/-- The Python exceptions the evaluator can raise. -/
inductive MisfitError where
  | indexError
  | shapeError
  | attributeError
  | notImplementedError
deriving Repr, DecidableEq

/-- `np.pad(data, n, 'constant')`: `n` zeros on each side. -/
def padConstant (l : List ℚ) (n : ℕ) : List ℚ := zeros n ++ l ++ zeros n

/-- Padding validation (cap.py lines 77–91): already-padded synthetics pass
through unchanged; equal-length synthetics are zero-padded by `P` samples a
side with a performance warning (second component `true`); any other length
relationship is the fatal shape error. -/
def padStep (npts_dat : ℕ) (P : ℤ) (s : List SynTrace) (npts_syn : ℕ) :
    Except MisfitError (List SynTrace × Bool) :=
  if (npts_syn : ℤ) - npts_dat = 2 * P then .ok (s, false)
  else if npts_dat = npts_syn then
    .ok (s.map (fun t => { t with data := padConstant t.data P.toNat }), true)
  else .error .shapeError

/-- Mode decision (cap.py lines 96–105): `0` for no shift, `1` for the
frequency domain, `2` for the time domain. -/
def decideMode (npts : ℕ) (P : ℤ) : ℕ :=
  if P = 0 then 0
  else if npts > 2000 ∨ P > 200 then 1
  else 2

/-- Whether a trace takes part in a group's lag search (cap.py lines
120–130): traces with an explicit zero weight are skipped, then traces
whose component letter does not belong to the group. -/
def selected (t : ObsTrace) (g : String) : Bool :=
  decide (¬t.weight = some 0) && decide (component t.channel ∈ g.toList)

/-- The indices `_indices` collected by a group's lag-search loop. -/
def selectIndices (d : List ObsTrace) (g : String) : List ℕ :=
  (List.range d.length).filter (fun i =>
    match d[i]? with
    | some t => selected t g
    | none => false)

/-- One step of the profile accumulation (cap.py lines 132–139): mode 1
adds `fftconvolve(d, s[::-1], 'valid')`, mode 2 adds
`np.correlate(d, s, 'valid')`, any other mode (`pass`) adds nothing. -/
def profileStep (mode : ℕ) (d : List ObsTrace) (s : List SynTrace)
    (acc : List ℚ) (i : ℕ) : List ℚ :=
  match d[i]?, s[i]? with
  | some di, some si =>
      if mode = 1 then vecAdd acc (fftconvolveValid di.data si.data.reverse)
      else if mode = 2 then vecAdd acc (npCorrelateValid di.data si.data)
      else acc
  | _, _ => acc

/-- The summed lag-correlation profile of a group (cap.py lines 118–139):
`result = np.zeros(plen)` accumulated over the selected traces. -/
def groupProfile (mode : ℕ) (d : List ObsTrace) (s : List SynTrace)
    (idxs : List ℕ) (plen : ℕ) : List ℚ :=
  idxs.foldl (profileStep mode d s) (zeros plen)

/-- `np.sum(np.abs(r)**p)*dt`. -/
def residualNorm (p : ℕ) (dt : ℚ) (r : List ℚ) : ℚ := (r.map (fun x => |x| ^ p)).sum * dt

/-- The running state threaded through the group loop: the observed traces,
the synthetic traces and the accumulated `sum_misfit`. -/
structure GroupState where
  d : List ObsTrace
  s : List SynTrace
  total : ℚ
deriving Repr, DecidableEq

/-- Second half of the group loop (cap.py lines 150–161): for each selected
index, write the shared alignment fields onto the synthetic record, write
the residual sum onto the observed record, and accumulate
`weight * sum_residuals`.  Reading a missing `weight` attribute is Python's
`AttributeError` (the error aborts the call, so the partially mutated state
it would leave behind is not observable through any result). -/
def writeRecords (p : ℕ) (dt : ℚ) (g : String) (ts : ℚ) (a b : ℤ) :
    List ℕ → GroupState → Except MisfitError GroupState
  | [], st => .ok st
  | i :: rest, st =>
    match st.d[i]?, st.s[i]? with
    | some di, some si =>
      let si' : SynTrace := { si with
        time_shift := some ts
        time_shift_group := some g
        start := some a
        stop := some b }
      let sr := residualNorm p dt (vecSub (pySlice si.data a b) di.data)
      let di' : ObsTrace := { di with sum_residuals := some sr }
      match di.weight with
      | none => .error .attributeError
      | some w =>
          writeRecords p dt g ts a b rest ⟨st.d.set i di', st.s.set i si', st.total + w * sr⟩
    | _, _ => writeRecords p dt g ts a b rest st

/-- One time-shift group (cap.py lines 113–161): lag search over the summed
correlation profile, then alignment and residual accumulation at the
optimal lag `argmax`, with `time_shift = (argmax - P) * dt`,
`start = 2P - argmax` and `stop = start + npts`. -/
def processGroup (p mode : ℕ) (dt : ℚ) (npts : ℕ) (P : ℤ) (st : GroupState)
    (g : String) : Except MisfitError GroupState :=
  let idxs := selectIndices st.d g
  let profile := groupProfile mode st.d st.s idxs (2 * P + 1).toNat
  let k := argmax profile
  writeRecords p dt g (((k : ℤ) - P) * dt) (2 * P - k) (2 * P - k + npts) idxs st

/-- The loop over `self.time_shift_groups`. -/
def processGroups (p mode : ℕ) (dt : ℚ) (npts : ℕ) (P : ℤ) :
    List String → GroupState → Except MisfitError GroupState
  | [], st => .ok st
  | g :: gs, st =>
    match processGroup p mode dt npts P st g with
    | .error e => .error e
    | .ok st' => processGroups p mode dt npts P gs st'

/-- What one station pair contributes: the mutated observation set, the
mutated synthetics, the station's addition to `sum_misfit`, and whether the
padding warning was emitted. -/
structure StationResult where
  d : ObsStation
  s : List SynTrace
  total : ℚ
  warned : Bool
deriving Repr, DecidableEq

/-- The body of the per-station loop of `Misfit.__call__` (cap.py lines
63–170): time sampling from the first trace (`IndexError` on an empty
stream), padding validation, cached mode decision, the group loop, then the
polarity term, which is unimplemented. -/
def processStation (m : Misfit) (d : ObsStation) (s : List SynTrace) :
    Except MisfitError StationResult :=
  match d.traces.head?, s.head? with
  | some d0, some s0 =>
    let npts := d0.data.length
    let dt := d0.delta
    let P := pythonRound (m.time_shift_max / dt)
    match padStep npts P s s0.data.length with
    | .error e => .error e
    | .ok (s1, warned) =>
      let mode := match d.time_shift_mode with
        | some mo => mo
        | none => decideMode npts P
      match processGroups m.order mode dt npts P m.time_shift_groups ⟨d.traces, s1, 0⟩ with
      | .error e => .error e
      | .ok st =>
        if m.polarity_weight > 0 then .error .notImplementedError
        else .ok ⟨⟨st.d, some mode⟩, st.s, st.total, warned⟩
  | _, _ => .error .indexError

/-- The loop `for d, s in zip(data, synthetics)`, threading the error
monad: a fatal error at any station aborts the whole call. -/
def processStations (m : Misfit) :
    List (ObsStation × List SynTrace) →
    Except MisfitError (List ObsStation × List (List SynTrace) × ℚ × Bool)
  | [] => .ok ([], [], 0, false)
  | (d, s) :: rest =>
    match processStation m d s with
    | .error e => .error e
    | .ok r =>
      match processStations m rest with
      | .error e => .error e
      | .ok (ds, ss, t, w) => .ok (r.d :: ds, r.s :: ss, r.total + t, r.warned || w)

/-- The caller-visible outcome of a successful call: the mutated
observation sets and synthetics, the accumulated pre-root total
`sum_misfit` and whether any padding warning was emitted.  The scalar the
Python function returns is `total ** (1/p)`, expressed over ℝ in the
theorems below. -/
structure CallResult where
  data : List ObsStation
  synthetics : List (List SynTrace)
  total : ℚ
  warned : Bool
deriving Repr, DecidableEq

/-- `Misfit.__call__` (cap.py lines 56–173).  `zip` truncates to the
shorter collection; stations beyond it are untouched. -/
def Misfit.call (m : Misfit) (data : List ObsStation) (syn : List (List SynTrace)) :
    Except MisfitError CallResult :=
  match processStations m (data.zip syn) with
  | .error e => .error e
  | .ok (ds, ss, t, w) =>
    .ok ⟨ds ++ data.drop (data.zip syn).length, ss ++ syn.drop (data.zip syn).length, t, w⟩

/-! Specification-side restatements of the accumulation rule, used by the
theorems: the fold the evaluator performs is proved equal to these direct
sums over stations, groups and contributing records. -/

/-- Inner product of two equally long sequences. -/
def dot (a b : List ℚ) : ℚ := (List.zipWith (· * ·) a b).sum

/-- The fields of an observed trace the evaluator reads but never writes:
the lag search and the residual accumulation depend on nothing else. -/
def obsKey (t : ObsTrace) : List ℚ × ℚ × String × Option ℚ :=
  (t.data, t.delta, t.channel, t.weight)

/-- The chosen lag index of one time-shift group: the argmax of the summed
correlation profile over the selected records. -/
def groupLag (mode : ℕ) (d : List ObsTrace) (s : List SynTrace) (P : ℤ)
    (g : String) : ℕ :=
  argmax (groupProfile mode d s (selectIndices d g) (2 * P + 1).toNat)

/-- One record's contribution to the misfit total,
`weight * (Σ |synthetic slice - data| ^ p) * dt`. -/
def recTerm (p : ℕ) (dt : ℚ) (a b : ℤ) (d : List ObsTrace) (s : List SynTrace)
    (i : ℕ) : ℚ :=
  match d[i]?, s[i]? with
  | some di, some si =>
      di.weight.getD 0 * residualNorm p dt (vecSub (pySlice si.data a b) di.data)
  | _, _ => 0

/-- One group's contribution to the misfit total: the sum of the
contributing records' terms at the group's chosen lag. -/
def groupSum (p mode : ℕ) (dt : ℚ) (npts : ℕ) (P : ℤ) (d : List ObsTrace)
    (s : List SynTrace) (g : String) : ℚ :=
  let k := groupLag mode d s P g
  ((selectIndices d g).map (recTerm p dt (2 * P - k) (2 * P - k + npts) d s)).sum

/-- One station's contribution to the misfit total: the sum of its groups'
contributions, computed against the padded synthetics. -/
def stationSum (m : Misfit) (d : ObsStation) (s : List SynTrace) : ℚ :=
  match d.traces.head?, s.head? with
  | some d0, some s0 =>
    match padStep d0.data.length (pythonRound (m.time_shift_max / d0.delta)) s
        s0.data.length with
    | .ok (s1, _) =>
      (m.time_shift_groups.map
        (groupSum m.order
          (match d.time_shift_mode with
            | some mo => mo
            | none => decideMode d0.data.length
                (pythonRound (m.time_shift_max / d0.delta)))
          d0.delta d0.data.length (pythonRound (m.time_shift_max / d0.delta))
          d.traces s1)).sum
    | .error _ => 0
  | _, _ => 0

/-- The accumulated total over all stations of a call. -/
def callSum (m : Misfit) (data : List ObsStation) (syn : List (List SynTrace)) : ℚ :=
  ((data.zip syn).map (fun pr => stationSum m pr.1 pr.2)).sum

instance {ε α : Type} [DecidableEq ε] [DecidableEq α] : DecidableEq (Except ε α) := fun x y =>
  match x, y with
  | .ok a, .ok b => if h : a = b then .isTrue (by rw [h]) else .isFalse (by simp [h])
  | .error a, .error b => if h : a = b then .isTrue (by rw [h]) else .isFalse (by simp [h])
  | .ok _, .error _ => .isFalse (by simp)
  | .error _, .ok _ => .isFalse (by simp)

set_option allowUnsafeReducibility true
set_option synthInstance.maxSize 512

attribute [local semireducible] Rat.add Rat.mul Rat.sub Rat.div Rat.neg Rat.inv

/-! Lag search: properties of `npMax` and `argmax`. -/

theorem foldl_max_init_le (xs : List ℚ) (a : ℚ) : a ≤ xs.foldl max a := by
  induction xs generalizing a with
  | nil => exact le_refl a
  | cons x xs ih => exact le_trans (le_max_left a x) (ih (max a x))

theorem le_foldl_max {xs : List ℚ} {x : ℚ} (hx : x ∈ xs) (a : ℚ) : x ≤ xs.foldl max a := by
  induction xs generalizing a with
  | nil => cases hx
  | cons y ys ih =>
    rcases List.mem_cons.mp hx with h | h
    · subst h
      exact le_trans (le_max_right a x) (foldl_max_init_le ys (max a x))
    · exact ih h (max a y)

theorem foldl_max_cases (xs : List ℚ) (a : ℚ) : xs.foldl max a = a ∨ xs.foldl max a ∈ xs := by
  induction xs generalizing a with
  | nil => exact Or.inl rfl
  | cons x xs ih =>
    rcases ih (max a x) with h | h
    · rcases max_choice a x with hm | hm
      · exact Or.inl (by rw [List.foldl_cons, h, hm])
      · exact Or.inr (by rw [List.foldl_cons, h, hm]; exact List.mem_cons_self x xs)
    · exact Or.inr (List.mem_cons_of_mem x h)

theorem le_npMax {l : List ℚ} {x : ℚ} (hx : x ∈ l) : x ≤ npMax l := by
  cases l with
  | nil => cases hx
  | cons y ys =>
    rcases List.mem_cons.mp hx with h | h
    · subst h; exact foldl_max_init_le ys x
    · exact le_foldl_max h y

theorem npMax_mem {l : List ℚ} (h : l ≠ []) : npMax l ∈ l := by
  cases l with
  | nil => exact absurd rfl h
  | cons y ys =>
    rcases foldl_max_cases ys y with hc | hc
    · rw [npMax, hc]; exact List.mem_cons_self y ys
    · exact List.mem_cons_of_mem y hc

theorem argmax_lt_length {l : List ℚ} (h : l ≠ []) : argmax l < l.length :=
  List.findIdx_lt_length_of_exists ⟨npMax l, npMax_mem h, by simp⟩

theorem getElem_argmax {l : List ℚ} (h : argmax l < l.length) : l[argmax l] = npMax l := by
  have := List.findIdx_getElem (p := fun x => decide (x = npMax l)) (w := h)
  simpa using this

theorem getElem_le_argmax {l : List ℚ} {j : ℕ} (hj : j < l.length)
    (h : argmax l < l.length) : l[j] ≤ l[argmax l] := by
  rw [getElem_argmax h]
  exact le_npMax (List.getElem_mem hj)

theorem getElem_lt_of_lt_argmax {l : List ℚ} {j : ℕ} (hj : j < l.length)
    (hja : j < argmax l) (h : argmax l < l.length) : l[j] < l[argmax l] := by
  have hne : ¬(l[j] = npMax l) := by
    have := List.not_of_lt_findIdx (p := fun x => decide (x = npMax l)) hja
    simpa using this
  rw [getElem_argmax h]
  exact lt_of_le_of_ne (le_npMax (List.getElem_mem hj)) hne

theorem argmax_of_all_eq {l : List ℚ} {c : ℚ} (h : ∀ x ∈ l, x = c) : argmax l = 0 := by
  cases l with
  | nil => rfl
  | cons x xs =>
    have hx : x = c := h x (List.mem_cons_self x xs)
    subst hx
    have hm : npMax (x :: xs) = x := h _ (npMax_mem (by simp))
    unfold argmax
    rw [List.findIdx_cons]
    simp [hm]

/-! Claim C4: the computation mode is decided by the data geometry on the
first evaluation and never overwritten afterwards. -/

/-- C4: for every station observation set, a successful evaluation leaves
`time_shift_mode` equal to the cached value when one was already present
(later evaluations never overwrite it), and otherwise to the decision rule:
mode `0` (no shift) if `npts_padding = 0`, else mode `1` (frequency domain)
if `npts_dat > 2000` or `npts_padding > 200`, else mode `2` (time domain),
with `npts_padding = round(time_shift_max / dt)` from the first trace. -/
theorem claim_C4 (m : Misfit) (d : ObsStation) (s : List SynTrace) (d0 : ObsTrace)
    (r : StationResult) (h0 : d.traces.head? = some d0)
    (hok : processStation m d s = .ok r) :
    r.d.time_shift_mode = some (match d.time_shift_mode with
      | some mo => mo
      | none => decideMode d0.data.length (pythonRound (m.time_shift_max / d0.delta))) := by
  unfold processStation at hok
  rw [h0] at hok
  cases hs0 : s.head? with
  | none => rw [hs0] at hok; cases hok
  | some s0 =>
    rw [hs0] at hok
    simp only [] at hok
    cases hp : padStep d0.data.length (pythonRound (m.time_shift_max / d0.delta)) s
        s0.data.length with
    | error e => rw [hp] at hok; simp at hok
    | ok pr =>
      obtain ⟨s1, warned⟩ := pr
      rw [hp] at hok
      simp only [] at hok
      cases hg : processGroups m.order
          (match d.time_shift_mode with
            | some mo => mo
            | none => decideMode d0.data.length (pythonRound (m.time_shift_max / d0.delta)))
          d0.delta d0.data.length (pythonRound (m.time_shift_max / d0.delta))
          m.time_shift_groups ⟨d.traces, s1, 0⟩ with
      | error e => rw [hg] at hok; simp at hok
      | ok st =>
        rw [hg] at hok
        simp only [] at hok
        by_cases hpol : m.polarity_weight > 0
        · rw [if_pos hpol] at hok; simp at hok
        · rw [if_neg hpol] at hok
          cases hok
          rfl

/-- Witness for C4: a single-trace station without a cached mode gets mode
`decideMode` of its geometry. -/
theorem claim_C4_witness :
    (⟨⟨[⟨[1], 1, "Z", some 1, some 0, none, none, none, none⟩], some 0⟩,
      [⟨[1], some 0, some "ZRT", some 0, some 1⟩], 0, false⟩ : StationResult).d.time_shift_mode
      = some (match (none : Option ℕ) with
        | some mo => mo
        | none => decideMode 1 (pythonRound ((0 : ℚ) / 1))) :=
  claim_C4 ⟨1, 0, ["ZRT"], 0⟩
    ⟨[⟨[1], 1, "Z", some 1, none, none, none, none, none⟩], none⟩
    [⟨[1], none, none, none, none⟩]
    ⟨[1], 1, "Z", some 1, none, none, none, none, none⟩
    ⟨⟨[⟨[1], 1, "Z", some 1, some 0, none, none, none, none⟩], some 0⟩,
      [⟨[1], some 0, some "ZRT", some 0, some 1⟩], 0, false⟩
    rfl (by decide)

/-! Claim C2: padding validation. -/

theorem padStep_error_eq {npts_dat : ℕ} {P : ℤ} {s : List SynTrace} {npts_syn : ℕ}
    {e : MisfitError} (h : padStep npts_dat P s npts_syn = .error e) : e = .shapeError := by
  unfold padStep at h
  split at h
  · cases h
  · split at h
    · cases h
    · cases h; rfl

theorem processStation_shapeError {m : Misfit} {d : ObsStation} {s : List SynTrace}
    {d0 : ObsTrace} {s0 : SynTrace} (h0 : d.traces.head? = some d0) (hs0 : s.head? = some s0)
    (hA : ¬((s0.data.length : ℤ) - d0.data.length
      = 2 * pythonRound (m.time_shift_max / d0.delta)))
    (hB : ¬(d0.data.length = s0.data.length)) :
    processStation m d s = .error .shapeError := by
  unfold processStation
  rw [h0, hs0]
  simp only []
  unfold padStep
  rw [if_neg hA, if_neg hB]

theorem processStations_ne_ok (m : Misfit) (d : ObsStation) (s : List SynTrace)
    (hfail : ∀ r, ¬ processStation m d s = .ok r) :
    ∀ pairs, (d, s) ∈ pairs → ∀ out, ¬ processStations m pairs = .ok out := by
  intro pairs
  induction pairs with
  | nil => intro hmem; cases hmem
  | cons pr rest ih =>
    intro hmem out h
    obtain ⟨dp, sp⟩ := pr
    unfold processStations at h
    cases hps : processStation m dp sp with
    | error e => rw [hps] at h; simp at h
    | ok r =>
      rw [hps] at h
      simp only [] at h
      rcases List.mem_cons.mp hmem with heq | hmem'
      · obtain ⟨hd, hs⟩ := Prod.mk.injEq .. ▸ heq
        exact hfail r (by rw [← hd, ← hs] at hps; exact hps)
      · cases hrest : processStations m rest with
        | error e => rw [hrest] at h; simp at h
        | ok out' => exact ih hmem' out' hrest

theorem call_ne_ok_of_station_fail {m : Misfit} {data : List ObsStation}
    {syn : List (List SynTrace)} {d : ObsStation} {s : List SynTrace}
    (hmem : (d, s) ∈ data.zip syn)
    (hfail : ∀ r, ¬ processStation m d s = .ok r) :
    ∀ r, ¬ Misfit.call m data syn = .ok r := by
  intro r h
  unfold Misfit.call at h
  cases hps : processStations m (data.zip syn) with
  | error e => rw [hps] at h; simp at h
  | ok out => exact processStations_ne_ok m d s hfail _ hmem out hps

/-- C2: for every station pair, evaluation proceeds exactly when
`npts_syn - npts_dat = 2 * npts_padding` (pre-padded case, synthetics pass
through unchanged and no warning) or `npts_syn = npts_dat` (every synthetic
record is zero-padded symmetrically by `npts_padding` samples a side and
the performance warning is emitted), with
`npts_padding = round(time_shift_max / dt)`; any other length relationship
raises the fatal data-shape error, and a station pair in that situation
makes the whole call fail. -/
theorem claim_C2 :
    (∀ (m : Misfit) (dt : ℚ) (npts_dat npts_syn : ℕ) (s : List SynTrace),
      (((npts_syn : ℤ) - npts_dat = 2 * pythonRound (m.time_shift_max / dt)) →
        padStep npts_dat (pythonRound (m.time_shift_max / dt)) s npts_syn = .ok (s, false)) ∧
      (¬((npts_syn : ℤ) - npts_dat = 2 * pythonRound (m.time_shift_max / dt)) →
        npts_dat = npts_syn →
        padStep npts_dat (pythonRound (m.time_shift_max / dt)) s npts_syn =
          .ok (s.map (fun t =>
            { t with data := padConstant t.data (pythonRound (m.time_shift_max / dt)).toNat }),
            true)) ∧
      (¬((npts_syn : ℤ) - npts_dat = 2 * pythonRound (m.time_shift_max / dt)) →
        ¬(npts_dat = npts_syn) →
        padStep npts_dat (pythonRound (m.time_shift_max / dt)) s npts_syn =
          .error .shapeError)) ∧
    (∀ (m : Misfit) (data : List ObsStation) (syn : List (List SynTrace))
        (d : ObsStation) (s : List SynTrace) (d0 : ObsTrace) (s0 : SynTrace),
      (d, s) ∈ data.zip syn → d.traces.head? = some d0 → s.head? = some s0 →
      ¬((s0.data.length : ℤ) - d0.data.length
        = 2 * pythonRound (m.time_shift_max / d0.delta)) →
      ¬(d0.data.length = s0.data.length) →
      ∀ r, ¬ Misfit.call m data syn = .ok r) := by
  constructor
  · intro m dt npts_dat npts_syn s
    refine ⟨fun hA => ?_, fun hA hB => ?_, fun hA hB => ?_⟩
    · unfold padStep; rw [if_pos hA]
    · unfold padStep; rw [if_neg hA, if_pos hB]
    · unfold padStep; rw [if_neg hA, if_neg hB]
  · intro m data syn d s d0 s0 hmem h0 hs0 hA hB
    exact call_ne_ok_of_station_fail hmem
      (fun r h => by rw [processStation_shapeError h0 hs0 hA hB] at h; cases h)

/-- Witness for C2: a concrete shape mismatch (`npts_dat = 2`,
`npts_syn = 3`, `npts_padding = 1`) is rejected, and a whole call containing
it returns no misfit. -/
theorem claim_C2_witness :
    padStep 2 (pythonRound ((1 : ℚ) / 1)) [] 3 = .error .shapeError ∧
    ¬ Misfit.call ⟨1, 0, ["ZRT"], 1⟩
        [⟨[⟨[1, 1], 1, "Z", some 1, none, none, none, none, none⟩], none⟩]
        [[⟨[1, 1, 1], none, none, none, none⟩]]
      = .ok ⟨[⟨[⟨[1, 1], 1, "Z", some 1, none, none, none, none, none⟩], none⟩],
             [[⟨[1, 1, 1], none, none, none, none⟩]], 0, false⟩ :=
  ⟨(claim_C2.1 ⟨1, 0, ["ZRT"], 1⟩ 1 2 3 []).2.2 (by decide) (by decide),
    claim_C2.2 ⟨1, 0, ["ZRT"], 1⟩
      [⟨[⟨[1, 1], 1, "Z", some 1, none, none, none, none, none⟩], none⟩]
      [[⟨[1, 1, 1], none, none, none, none⟩]]
      ⟨[⟨[1, 1], 1, "Z", some 1, none, none, none, none, none⟩], none⟩
      [⟨[1, 1, 1], none, none, none, none⟩]
      ⟨[1, 1], 1, "Z", some 1, none, none, none, none, none⟩
      ⟨[1, 1, 1], none, none, none, none⟩
      (by decide) rfl rfl (by decide) (by decide) _⟩

/-! Claim C9: the polarity path. -/

theorem writeRecords_error_eq {p : ℕ} {dt : ℚ} {g : String} {ts : ℚ} {a b : ℤ}
    {idxs : List ℕ} {st : GroupState} {e : MisfitError}
    (h : writeRecords p dt g ts a b idxs st = .error e) : e = .attributeError := by
  induction idxs generalizing st with
  | nil => simp [writeRecords] at h
  | cons i rest ih =>
    unfold writeRecords at h
    split at h
    · split at h
      · cases h; rfl
      · exact ih h
    · exact ih h

theorem processGroups_error_eq {p mode : ℕ} {dt : ℚ} {npts : ℕ} {P : ℤ}
    {gs : List String} {st : GroupState} {e : MisfitError}
    (h : processGroups p mode dt npts P gs st = .error e) : e = .attributeError := by
  induction gs generalizing st with
  | nil => simp [processGroups] at h
  | cons g rest ih =>
    unfold processGroups at h
    split at h
    · cases h
      exact writeRecords_error_eq (by assumption)
    · exact ih h

theorem processStation_no_notimpl {m : Misfit} {d : ObsStation} {s : List SynTrace}
    (hpol : m.polarity_weight = 0) :
    ¬ processStation m d s = .error .notImplementedError := by
  intro h
  unfold processStation at h
  cases h0 : d.traces.head? with
  | none => rw [h0] at h; cases s.head? <;> simp only [] at h <;> cases h
  | some d0 =>
    rw [h0] at h
    cases hs0 : s.head? with
    | none => rw [hs0] at h; simp only [] at h; cases h
    | some s0 =>
      rw [hs0] at h
      simp only [] at h
      cases hp : padStep d0.data.length (pythonRound (m.time_shift_max / d0.delta)) s
          s0.data.length with
      | error e =>
        rw [hp] at h
        simp only [] at h
        cases h
        exact absurd (padStep_error_eq hp) (by simp)
      | ok pr =>
        obtain ⟨s1, warned⟩ := pr
        rw [hp] at h
        simp only [] at h
        cases hg : processGroups m.order
            (match d.time_shift_mode with
              | some mo => mo
              | none => decideMode d0.data.length (pythonRound (m.time_shift_max / d0.delta)))
            d0.delta d0.data.length (pythonRound (m.time_shift_max / d0.delta))
            m.time_shift_groups ⟨d.traces, s1, 0⟩ with
        | error e =>
          rw [hg] at h
          simp only [] at h
          cases h
          exact absurd (processGroups_error_eq hg) (by simp)
        | ok st =>
          rw [hg] at h
          simp only [] at h
          rw [if_neg (by rw [hpol]; exact lt_irrefl 0)] at h
          cases h

theorem processStation_polarity_fail {m : Misfit} {d : ObsStation} {s : List SynTrace}
    (hpol : 0 < m.polarity_weight) : ∀ r, ¬ processStation m d s = .ok r := by
  intro r h
  unfold processStation at h
  cases h0 : d.traces.head? with
  | none => rw [h0] at h; cases s.head? <;> simp only [] at h <;> cases h
  | some d0 =>
    rw [h0] at h
    cases hs0 : s.head? with
    | none => rw [hs0] at h; simp only [] at h; cases h
    | some s0 =>
      rw [hs0] at h
      simp only [] at h
      cases hp : padStep d0.data.length (pythonRound (m.time_shift_max / d0.delta)) s
          s0.data.length with
      | error e => rw [hp] at h; simp only [] at h; cases h
      | ok pr =>
        obtain ⟨s1, warned⟩ := pr
        rw [hp] at h
        simp only [] at h
        cases hg : processGroups m.order
            (match d.time_shift_mode with
              | some mo => mo
              | none => decideMode d0.data.length (pythonRound (m.time_shift_max / d0.delta)))
            d0.delta d0.data.length (pythonRound (m.time_shift_max / d0.delta))
            m.time_shift_groups ⟨d.traces, s1, 0⟩ with
        | error e => rw [hg] at h; simp only [] at h; cases h
        | ok st =>
          rw [hg] at h
          simp only [] at h
          rw [if_pos hpol] at h
          cases h

theorem processStations_no_notimpl {m : Misfit} (hpol : m.polarity_weight = 0) :
    ∀ pairs, ¬ processStations m pairs = .error .notImplementedError := by
  intro pairs
  induction pairs with
  | nil => intro h; simp [processStations] at h
  | cons pr rest ih =>
    intro h
    obtain ⟨dp, sp⟩ := pr
    unfold processStations at h
    cases hps : processStation m dp sp with
    | error e =>
      rw [hps] at h
      simp only [] at h
      cases h
      exact processStation_no_notimpl hpol hps
    | ok r =>
      rw [hps] at h
      simp only [] at h
      cases hrest : processStations m rest with
      | error e => rw [hrest] at h; cases h; exact ih hrest
      | ok out => rw [hrest] at h; simp only [] at h; cases h

/-- Counterexample to C9 as stated: with `polarity_weight = 1 > 0`, a call
over an empty observation collection raises nothing and returns normally
(pre-root total `0`), because the not-implemented check sits inside the
per-station loop. -/
theorem claim_C9_counterexample :
    Misfit.call ⟨1, 1, ["ZRT"], 0⟩ [] [] = .ok ⟨[], [], 0, false⟩ := by decide

/-- C9 (amended: at least one station pair must be processed): with
`polarity_weight > 0` every call that processes at least one station pair
fails — no misfit is ever returned, the polarity contribution is never
computed — and with `polarity_weight = 0` the not-implemented error is
never raised. -/
theorem claim_C9 (m : Misfit) (data : List ObsStation) (syn : List (List SynTrace)) :
    (0 < m.polarity_weight → data.zip syn ≠ [] → ∀ r, ¬ Misfit.call m data syn = .ok r) ∧
    (m.polarity_weight = 0 → ¬ Misfit.call m data syn = .error .notImplementedError) := by
  constructor
  · intro hpol hz r
    cases hzc : data.zip syn with
    | nil => exact absurd hzc hz
    | cons pr rest =>
      obtain ⟨dp, sp⟩ := pr
      apply call_ne_ok_of_station_fail (d := dp) (s := sp) ?_ (processStation_polarity_fail hpol)
      rw [hzc]
      exact List.mem_cons_self _ _
  · intro hpol h
    unfold Misfit.call at h
    cases hps : processStations m (data.zip syn) with
    | error e =>
      rw [hps] at h
      simp only [] at h
      cases h
      exact processStations_no_notimpl hpol _ hps
    | ok out => rw [hps] at h; simp only [] at h; cases h

/-- Witness for C9 at a concrete nonempty pair and a concrete
zero-polarity configuration. -/
theorem claim_C9_witness :
    (¬ Misfit.call ⟨1, 1, ["ZRT"], 0⟩
        [⟨[⟨[1], 1, "Z", some 1, none, none, none, none, none⟩], none⟩]
        [[⟨[1], none, none, none, none⟩]]
      = .ok ⟨[], [], 0, false⟩) ∧
    ¬ Misfit.call ⟨1, 0, ["ZRT"], 0⟩ [] [] = .error .notImplementedError :=
  ⟨(claim_C9 ⟨1, 1, ["ZRT"], 0⟩
      [⟨[⟨[1], 1, "Z", some 1, none, none, none, none, none⟩], none⟩]
      [[⟨[1], none, none, none, none⟩]]).1 (by decide) (by decide) _,
   (claim_C9 ⟨1, 0, ["ZRT"], 0⟩ [] []).2 rfl⟩

/-! Claims C3 and C8: the fast-correlation utility. -/

theorem npCorrelateValid_length (v1 v2 : List ℚ) :
    (npCorrelateValid v1 v2).length = v2.length - v1.length + 1 := by
  simp [npCorrelateValid]

theorem fullConv_length (a b : List ℚ) :
    (fullConv a b).length = a.length + b.length - 1 := by
  simp [fullConv]

theorem fftconvolveValid_length (a b : List ℚ) (h1 : 0 < a.length)
    (h2 : a.length ≤ b.length) :
    (fftconvolveValid a b).length = b.length - a.length + 1 := by
  simp only [fftconvolveValid, List.length_take, List.length_drop, fullConv_length]
  omega

theorem fftconvolveValid_reverse_eq (v1 v2 : List ℚ) (h1 : 0 < v1.length)
    (h2 : v1.length ≤ v2.length) :
    fftconvolveValid v1 v2.reverse = npCorrelateValid v1 v2 := by
  have hwlen : v2.reverse.length = v2.length := List.length_reverse v2
  apply List.ext_getElem
  · rw [fftconvolveValid_length v1 v2.reverse h1 (by rw [hwlen]; exact h2),
      npCorrelateValid_length, hwlen]
  · intro k hk1 hk2
    have hk : k < v2.length - v1.length + 1 := by
      rw [npCorrelateValid_length] at hk2; exact hk2
    have hmin : min v1.length v2.reverse.length = v1.length := by
      rw [hwlen]; exact Nat.min_eq_left h2
    have hfc : (fullConv v1 v2.reverse).length = v1.length + v2.length - 1 := by
      rw [fullConv_length, hwlen]
    -- reduce both sides to sums over `range v1.length`
    have hidx : v1.length - 1 + k < (fullConv v1 v2.reverse).length := by
      rw [hfc]; omega
    have hlhs : (fftconvolveValid v1 v2.reverse)[k] =
        (fullConv v1 v2.reverse)[v1.length - 1 + k] := by
      simp only [fftconvolveValid, hmin]
      rw [List.getElem_take, List.getElem_drop]
    rw [hlhs]
    simp only [fullConv, npCorrelateValid, List.getElem_map, List.getElem_range]
    congr 1
    apply List.map_congr_left
    intro i hi
    rw [List.mem_range] at hi
    have hcond : i ≤ v1.length - 1 + k ∧ v1.length - 1 + k - i < v2.reverse.length := by
      rw [hwlen]; omega
    rw [if_pos hcond]
    congr 1
    have hj : v1.length - 1 + k - i < v2.length := by rw [← hwlen]; exact hcond.2
    rw [List.getD_eq_getElem v2.reverse 0 (by rw [hwlen]; exact hj),
      List.getElem_reverse,
      List.getD_eq_getElem v2 0 (by omega)]
    congr 1
    omega

/-- C3: the Correlation Engine picks the frequency-domain algorithm exactly
when `n1 > 2000` or `n2 - n1 > 200` and the time-domain algorithm
otherwise, and on every input the two algorithms agree exactly (exact
rational arithmetic models the "numerically equivalent up to rounding"
requirement), so the selection never changes the result. -/
theorem claim_C3 (v1 v2 : List ℚ) (h1 : 0 < v1.length) (h2 : v1.length < v2.length) :
    (v1.length > 2000 ∨ v2.length - v1.length > 200 →
      correlate v1 v2 = fftconvolveValid v1 v2.reverse) ∧
    (¬(v1.length > 2000 ∨ v2.length - v1.length > 200) →
      correlate v1 v2 = npCorrelateValid v1 v2) ∧
    fftconvolveValid v1 v2.reverse = npCorrelateValid v1 v2 := by
  refine ⟨fun h => ?_, fun h => ?_, fftconvolveValid_reverse_eq v1 v2 h1 (le_of_lt h2)⟩
  · unfold correlate; rw [if_pos h]
  · unfold correlate; rw [if_neg h]

/-- Witness for C3 at a concrete short pair (time-domain branch). -/
theorem claim_C3_witness :
    (¬((1 : ℕ) > 2000 ∨ 3 - 1 > 200) → correlate [1] [1, 2, 3] = npCorrelateValid [1] [1, 2, 3]) ∧
    fftconvolveValid [1] ([1, 2, 3] : List ℚ).reverse = npCorrelateValid [1] [1, 2, 3] :=
  ⟨fun h => (claim_C3 [1] [1, 2, 3] (by decide) (by decide)).2.1 h,
   (claim_C3 [1] [1, 2, 3] (by decide) (by decide)).2.2⟩

theorem dot_eq_sum_range (a : List ℚ) : ∀ b : List ℚ, a.length ≤ b.length →
    dot a b = ((List.range a.length).map (fun i => a.getD i 0 * b.getD i 0)).sum := by
  induction a with
  | nil => intro b _; simp [dot]
  | cons x xs ih =>
    intro b hb
    cases b with
    | nil => simp at hb
    | cons y ys =>
      have hb' : xs.length ≤ ys.length := by simpa using hb
      have hcons : dot (x :: xs) (y :: ys) = x * y + dot xs ys := by
        simp [dot]
      rw [hcons, ih ys hb']
      simp only [List.length_cons, List.range_succ_eq_map, List.map_cons, List.map_map,
        List.sum_cons, List.getD_cons_zero]
      apply congrArg (fun z => x * y + z)
      apply congrArg List.sum
      apply List.map_congr_left
      intro i hi
      simp [Function.comp, List.getElem?_cons_succ]

/-- C8: for reference length `n1` and padded length `n2 > n1`, `correlate`
returns `n2 - n1 + 1` entries, and entry `k` is the inner product of the
reference with the `n1`-sample window of the padded signal starting at
offset `n2 - n1 - k` — the cross-correlation at every contiguous
alignment. -/
theorem claim_C8 (v1 v2 : List ℚ) (h1 : 0 < v1.length) (h2 : v1.length < v2.length) :
    (correlate v1 v2).length = v2.length - v1.length + 1 ∧
    ∀ k, k ≤ v2.length - v1.length →
      (correlate v1 v2)[k]? =
        some (dot v1 ((v2.drop (v2.length - v1.length - k)).take v1.length)) := by
  have hnp : ∀ k, k ≤ v2.length - v1.length →
      (npCorrelateValid v1 v2)[k]? =
        some (dot v1 ((v2.drop (v2.length - v1.length - k)).take v1.length)) := by
    intro k hk
    have hkl : k < (npCorrelateValid v1 v2).length := by
      rw [npCorrelateValid_length]; omega
    rw [List.getElem?_eq_getElem hkl]
    congr 1
    have hslice : ((v2.drop (v2.length - v1.length - k)).take v1.length).length
        = v1.length := by
      simp only [List.length_take, List.length_drop]
      omega
    rw [dot_eq_sum_range v1 _ (le_of_eq hslice.symm)]
    simp only [npCorrelateValid, List.getElem_map, List.getElem_range]
    apply congrArg List.sum
    apply List.map_congr_left
    intro i hi
    rw [List.mem_range] at hi
    congr 1
    have hiv : v2.length - v1.length - k + i < v2.length := by omega
    have hit : i < ((v2.drop (v2.length - v1.length - k)).take v1.length).length := by
      rw [hslice]; exact hi
    rw [List.getD_eq_getElem _ 0 hit, List.getElem_take, List.getElem_drop,
      List.getD_eq_getElem v2 0 (by omega)]
    congr 1
    omega
  have hsel : correlate v1 v2 = npCorrelateValid v1 v2 := by
    unfold correlate
    by_cases h : v1.length > 2000 ∨ v2.length - v1.length > 200
    · rw [if_pos h]; exact fftconvolveValid_reverse_eq v1 v2 h1 (le_of_lt h2)
    · rw [if_neg h]
  rw [hsel, npCorrelateValid_length]
  exact ⟨rfl, hnp⟩

/-- Witness for C8 on a concrete pair: length and middle entry. -/
theorem claim_C8_witness :
    (correlate [1, 2] [5, 6, 7, 8] : List ℚ).length = 4 - 2 + 1 ∧
    (correlate [1, 2] [5, 6, 7, 8] : List ℚ)[1]? =
      some (dot [1, 2] ((([5, 6, 7, 8] : List ℚ).drop (4 - 2 - 1)).take 2)) :=
  ⟨(claim_C8 [1, 2] [5, 6, 7, 8] (by decide) (by decide)).1,
   (claim_C8 [1, 2] [5, 6, 7, 8] (by decide) (by decide)).2 1 (by decide)⟩

/-! The group loop: invariants of the residual-accumulation fold. -/

theorem map_set_eq {α β : Type} {f : α → β} {l : List α} {i : ℕ} {x y : α}
    (h : l[i]? = some x) (hk : f y = f x) : (l.set i y).map f = l.map f := by
  apply List.ext_getElem?
  intro n
  rw [List.getElem?_map, List.getElem?_map]
  by_cases hn : i = n
  · subst hn
    obtain ⟨hlt, _⟩ := List.getElem?_eq_some_iff.mp h
    rw [List.getElem?_set_self hlt, h]
    simp [hk]
  · rw [List.getElem?_set_ne hn]

theorem obsKey_parts {t1 t2 : ObsTrace} (h : obsKey t1 = obsKey t2) :
    t1.data = t2.data ∧ t1.delta = t2.delta ∧ t1.channel = t2.channel ∧
      t1.weight = t2.weight := by
  unfold obsKey at h
  exact ⟨congrArg (fun z => z.1) h, congrArg (fun z => z.2.1) h,
    congrArg (fun z => z.2.2.1) h, congrArg (fun z => z.2.2.2) h⟩

theorem getElem?_congr_of_map_eq {α β : Type} {f : α → β} {l1 l2 : List α}
    (h : l1.map f = l2.map f) (i : ℕ) : l1[i]?.map f = l2[i]?.map f := by
  rw [← List.getElem?_map, h, List.getElem?_map]

theorem length_eq_of_map_eq {α β : Type} {f : α → β} {l1 l2 : List α}
    (h : l1.map f = l2.map f) : l1.length = l2.length := by
  rw [← List.length_map l1 f, h, List.length_map]

theorem selected_congr {t1 t2 : ObsTrace} (h : obsKey t1 = obsKey t2) (g : String) :
    selected t1 g = selected t2 g := by
  obtain ⟨_, _, hc, hw⟩ := obsKey_parts h
  unfold selected
  rw [hc, hw]

theorem selectIndices_congr {d1 d2 : List ObsTrace}
    (h : d1.map obsKey = d2.map obsKey) (g : String) :
    selectIndices d1 g = selectIndices d2 g := by
  have hlen : d1.length = d2.length := length_eq_of_map_eq h
  unfold selectIndices
  rw [hlen]
  apply List.filter_congr
  intro i _
  have hmapi := getElem?_congr_of_map_eq h i
  cases h1 : d1[i]? with
  | none =>
    rw [h1] at hmapi
    cases h2 : d2[i]? with
    | none => rfl
    | some t2 => rw [h2] at hmapi; cases hmapi
  | some t1 =>
    rw [h1] at hmapi
    cases h2 : d2[i]? with
    | none => rw [h2] at hmapi; cases hmapi
    | some t2 =>
      rw [h2] at hmapi
      simp only [Option.map] at hmapi
      exact selected_congr (Option.some.inj hmapi) g

theorem mem_selectIndices {d : List ObsTrace} {g : String} {i : ℕ} :
    i ∈ selectIndices d g ↔ ∃ t, d[i]? = some t ∧ selected t g = true := by
  unfold selectIndices
  rw [List.mem_filter, List.mem_range]
  constructor
  · rintro ⟨hi, hsel⟩
    cases hdi : d[i]? with
    | none => rw [hdi] at hsel; cases hsel
    | some t => rw [hdi] at hsel; exact ⟨t, rfl, hsel⟩
  · rintro ⟨t, ht, hsel⟩
    obtain ⟨hlt, _⟩ := List.getElem?_eq_some_iff.mp ht
    exact ⟨hlt, by rw [ht]; exact hsel⟩

theorem selectIndices_nodup (d : List ObsTrace) (g : String) :
    (selectIndices d g).Nodup :=
  List.Nodup.filter _ (List.nodup_range d.length)

theorem selectIndices_lt_length {d : List ObsTrace} {g : String} {i : ℕ}
    (h : i ∈ selectIndices d g) : i < d.length := by
  obtain ⟨t, ht, _⟩ := mem_selectIndices.mp h
  obtain ⟨hlt, _⟩ := List.getElem?_eq_some_iff.mp ht
  exact hlt

theorem profileStep_length_le (mode : ℕ) (d : List ObsTrace) (s : List SynTrace)
    (acc : List ℚ) (i : ℕ) : (profileStep mode d s acc i).length ≤ acc.length := by
  unfold profileStep
  split
  · split
    · unfold vecAdd
      rw [List.length_zipWith]
      exact min_le_left _ _
    · split
      · unfold vecAdd
        rw [List.length_zipWith]
        exact min_le_left _ _
      · exact le_refl _
  · exact le_refl _

theorem foldl_profileStep_length_le (mode : ℕ) (d : List ObsTrace) (s : List SynTrace) :
    ∀ (idxs : List ℕ) (acc : List ℚ),
      (idxs.foldl (profileStep mode d s) acc).length ≤ acc.length := by
  intro idxs
  induction idxs with
  | nil => intro acc; exact le_refl _
  | cons i rest ih =>
    intro acc
    rw [List.foldl_cons]
    exact le_trans (ih (profileStep mode d s acc i)) (profileStep_length_le mode d s acc i)

theorem groupProfile_length_le (mode : ℕ) (d : List ObsTrace) (s : List SynTrace)
    (idxs : List ℕ) (plen : ℕ) : (groupProfile mode d s idxs plen).length ≤ plen := by
  have := foldl_profileStep_length_le mode d s idxs (zeros plen)
  simpa [groupProfile, zeros] using this

theorem profileStep_congr {mode : ℕ} {d1 d2 : List ObsTrace} {s1 s2 : List SynTrace}
    (hd : d1.map obsKey = d2.map obsKey)
    (hs : s1.map SynTrace.data = s2.map SynTrace.data)
    (acc : List ℚ) (i : ℕ) :
    profileStep mode d1 s1 acc i = profileStep mode d2 s2 acc i := by
  have hmapd := getElem?_congr_of_map_eq hd i
  have hmaps := getElem?_congr_of_map_eq hs i
  unfold profileStep
  cases h1 : d1[i]? with
  | none =>
    rw [h1] at hmapd
    cases h2 : d2[i]? with
    | none => rfl
    | some t2 => rw [h2] at hmapd; cases hmapd
  | some t1 =>
    rw [h1] at hmapd
    cases h2 : d2[i]? with
    | none => rw [h2] at hmapd; cases hmapd
    | some t2 =>
      rw [h2] at hmapd
      simp only [Option.map] at hmapd
      have hdata : t1.data = t2.data := (obsKey_parts (Option.some.inj hmapd)).1
      cases hs1 : s1[i]? with
      | none =>
        rw [hs1] at hmaps
        cases hs2 : s2[i]? with
        | none => rfl
        | some u2 => rw [hs2] at hmaps; cases hmaps
      | some u1 =>
        rw [hs1] at hmaps
        cases hs2 : s2[i]? with
        | none => rw [hs2] at hmaps; cases hmaps
        | some u2 =>
          rw [hs2] at hmaps
          simp only [Option.map] at hmaps
          have hsdata : u1.data = u2.data := Option.some.inj hmaps
          simp only []
          rw [hdata, hsdata]

theorem groupProfile_congr {mode : ℕ} {d1 d2 : List ObsTrace} {s1 s2 : List SynTrace}
    (hd : d1.map obsKey = d2.map obsKey)
    (hs : s1.map SynTrace.data = s2.map SynTrace.data)
    (idxs : List ℕ) (plen : ℕ) :
    groupProfile mode d1 s1 idxs plen = groupProfile mode d2 s2 idxs plen := by
  unfold groupProfile
  suffices h : ∀ acc, idxs.foldl (profileStep mode d1 s1) acc
      = idxs.foldl (profileStep mode d2 s2) acc from h (zeros plen)
  induction idxs with
  | nil => intro acc; rfl
  | cons i rest ih =>
    intro acc
    rw [List.foldl_cons, List.foldl_cons, profileStep_congr hd hs acc i]
    exact ih _

theorem recTerm_congr {p : ℕ} {dt : ℚ} {a b : ℤ} {d1 d2 : List ObsTrace}
    {s1 s2 : List SynTrace}
    (hd : d1.map obsKey = d2.map obsKey)
    (hs : s1.map SynTrace.data = s2.map SynTrace.data) (i : ℕ) :
    recTerm p dt a b d1 s1 i = recTerm p dt a b d2 s2 i := by
  have hmapd := getElem?_congr_of_map_eq hd i
  have hmaps := getElem?_congr_of_map_eq hs i
  unfold recTerm
  cases h1 : d1[i]? with
  | none =>
    rw [h1] at hmapd
    cases h2 : d2[i]? with
    | none => rfl
    | some t2 => rw [h2] at hmapd; cases hmapd
  | some t1 =>
    rw [h1] at hmapd
    cases h2 : d2[i]? with
    | none => rw [h2] at hmapd; cases hmapd
    | some t2 =>
      rw [h2] at hmapd
      simp only [Option.map] at hmapd
      obtain ⟨hdata, _, _, hw⟩ := obsKey_parts (Option.some.inj hmapd)
      cases hs1 : s1[i]? with
      | none =>
        rw [hs1] at hmaps
        cases hs2 : s2[i]? with
        | none => rfl
        | some u2 => rw [hs2] at hmaps; cases hmaps
      | some u1 =>
        rw [hs1] at hmaps
        cases hs2 : s2[i]? with
        | none => rw [hs2] at hmaps; cases hmaps
        | some u2 =>
          rw [hs2] at hmaps
          simp only [Option.map] at hmaps
          have hsdata : u1.data = u2.data := Option.some.inj hmaps
          simp only []
          rw [hdata, hsdata, hw]

theorem groupSum_congr {p mode : ℕ} {dt : ℚ} {npts : ℕ} {P : ℤ}
    {d1 d2 : List ObsTrace} {s1 s2 : List SynTrace}
    (hd : d1.map obsKey = d2.map obsKey)
    (hs : s1.map SynTrace.data = s2.map SynTrace.data) (g : String) :
    groupSum p mode dt npts P d1 s1 g = groupSum p mode dt npts P d2 s2 g := by
  unfold groupSum groupLag
  rw [selectIndices_congr hd g, groupProfile_congr hd hs]
  exact congrArg List.sum (List.map_congr_left (fun i _ => recTerm_congr hd hs i))


theorem argmax_le_of_length_le {l : List ℚ} {n : ℕ} (h : l.length ≤ n + 1) :
    argmax l ≤ n := by
  cases hl : l with
  | nil =>
    subst hl
    have h0 : argmax ([] : List ℚ) = 0 := rfl
    omega
  | cons x xs =>
    subst hl
    have := argmax_lt_length (l := x :: xs) (by simp)
    simp only [List.length_cons] at this h
    omega

theorem writeRecords_ok_spec {p : ℕ} {dt : ℚ} {g : String} {ts : ℚ} {a b : ℤ} :
    ∀ (idxs : List ℕ) (st st' : GroupState),
      writeRecords p dt g ts a b idxs st = .ok st' →
      st'.d.map obsKey = st.d.map obsKey ∧
      st'.s.map SynTrace.data = st.s.map SynTrace.data ∧
      st'.total = st.total + (idxs.map (recTerm p dt a b st.d st.s)).sum := by
  intro idxs
  induction idxs with
  | nil =>
    intro st st' h
    unfold writeRecords at h
    cases h
    simp
  | cons i rest ih =>
    intro st st' h
    unfold writeRecords at h
    cases hd : st.d[i]? with
    | some di =>
      cases hs : st.s[i]? with
      | some si =>
        rw [hd, hs] at h
        simp only [] at h
        split at h
        next => cases h
        next w hw =>
          obtain ⟨ihd, ihs, iht⟩ := ih _ _ h
          have hset_d : ((st.d.set i { di with sum_residuals := some (residualNorm p dt (vecSub (pySlice si.data a b) di.data)) }).map obsKey) = st.d.map obsKey :=
            map_set_eq hd rfl
          have hset_s : ((st.s.set i { si with time_shift := some ts, time_shift_group := some g, start := some a, stop := some b }).map SynTrace.data) = st.s.map SynTrace.data :=
            map_set_eq hs rfl
          refine ⟨ihd.trans hset_d, ihs.trans hset_s, ?_⟩
          rw [iht]
          have hterm : recTerm p dt a b st.d st.s i
              = w * residualNorm p dt (vecSub (pySlice si.data a b) di.data) := by
            simp [recTerm, hd, hs, hw, residualNorm]
          have htail : rest.map (recTerm p dt a b (st.d.set i { di with sum_residuals := some (residualNorm p dt (vecSub (pySlice si.data a b) di.data)) }) (st.s.set i { si with time_shift := some ts, time_shift_group := some g, start := some a, stop := some b })) = rest.map (recTerm p dt a b st.d st.s) :=
            List.map_congr_left (fun j _ => recTerm_congr hset_d hset_s j)
          rw [htail, List.map_cons, List.sum_cons, hterm]
          ring
      | none =>
        rw [hd, hs] at h
        simp only [] at h
        obtain ⟨ihd, ihs, iht⟩ := ih _ _ h
        refine ⟨ihd, ihs, ?_⟩
        rw [iht]
        have hterm : recTerm p dt a b st.d st.s i = 0 := by simp [recTerm, hd, hs]
        rw [List.map_cons, List.sum_cons, hterm]
        ring
    | none =>
      rw [hd] at h
      simp only [] at h
      obtain ⟨ihd, ihs, iht⟩ := ih _ _ h
      refine ⟨ihd, ihs, ?_⟩
      rw [iht]
      have hterm : recTerm p dt a b st.d st.s i = 0 := by simp [recTerm, hd]
      rw [List.map_cons, List.sum_cons, hterm]
      ring

theorem writeRecords_not_mem {p : ℕ} {dt : ℚ} {g : String} {ts : ℚ} {a b : ℤ} :
    ∀ (idxs : List ℕ) (st st' : GroupState),
      writeRecords p dt g ts a b idxs st = .ok st' →
      ∀ j, j ∉ idxs → st'.d[j]? = st.d[j]? ∧ st'.s[j]? = st.s[j]? := by
  intro idxs
  induction idxs with
  | nil =>
    intro st st' h j _
    unfold writeRecords at h
    cases h
    exact ⟨rfl, rfl⟩
  | cons i rest ih =>
    intro st st' h j hj
    have hji : j ≠ i := fun he => hj (he ▸ List.mem_cons_self i rest)
    have hjr : j ∉ rest := fun hm => hj (List.mem_cons_of_mem i hm)
    unfold writeRecords at h
    cases hd : st.d[i]? with
    | some di =>
      cases hs : st.s[i]? with
      | some si =>
        rw [hd, hs] at h
        simp only [] at h
        split at h
        next => cases h
        next w hw =>
          obtain ⟨h1, h2⟩ := ih _ _ h j hjr
          rw [h1, h2]
          exact ⟨List.getElem?_set_ne (Ne.symm hji), List.getElem?_set_ne (Ne.symm hji)⟩
      | none =>
        rw [hd, hs] at h
        simp only [] at h
        exact ih _ _ h j hjr
    | none =>
      rw [hd] at h
      simp only [] at h
      exact ih _ _ h j hjr

theorem writeRecords_written {p : ℕ} {dt : ℚ} {g : String} {ts : ℚ} {a b : ℤ} :
    ∀ (idxs : List ℕ) (st st' : GroupState), idxs.Nodup →
      writeRecords p dt g ts a b idxs st = .ok st' →
      ∀ i ∈ idxs, ∀ di si, st.d[i]? = some di → st.s[i]? = some si →
        st'.s[i]? = some { si with
          time_shift := some ts
          time_shift_group := some g
          start := some a
          stop := some b } ∧
        st'.d[i]? = some { di with
          sum_residuals := some (residualNorm p dt (vecSub (pySlice si.data a b) di.data)) } := by
  intro idxs
  induction idxs with
  | nil => intro st st' _ _ i hi; cases hi
  | cons i0 rest ih =>
    intro st st' hnd h i hi di si hdi hsi
    obtain ⟨hni, hndr⟩ := List.nodup_cons.mp hnd
    unfold writeRecords at h
    rcases List.mem_cons.mp hi with heq | hmem
    · subst heq
      rw [hdi, hsi] at h
      simp only [] at h
      split at h
      next => cases h
      next w hw =>
        obtain ⟨h1, h2⟩ := writeRecords_not_mem rest _ _ h i hni
        rw [h1, h2]
        have hlt_d : i < st.d.length := (List.getElem?_eq_some_iff.mp hdi).1
        have hlt_s : i < st.s.length := (List.getElem?_eq_some_iff.mp hsi).1
        exact ⟨List.getElem?_set_self hlt_s, List.getElem?_set_self hlt_d⟩
    · have hne : i ≠ i0 := fun he => hni (he ▸ hmem)
      cases hd0 : st.d[i0]? with
      | some d0 =>
        cases hs0 : st.s[i0]? with
        | some s0 =>
          rw [hd0, hs0] at h
          simp only [] at h
          split at h
          next => cases h
          next w hw =>
            apply ih _ _ hndr h i hmem di si
            · rw [List.getElem?_set_ne (Ne.symm hne)]
              exact hdi
            · rw [List.getElem?_set_ne (Ne.symm hne)]
              exact hsi
        | none =>
          rw [hd0, hs0] at h
          simp only [] at h
          exact ih _ _ hndr h i hmem di si hdi hsi
      | none =>
        rw [hd0] at h
        simp only [] at h
        exact ih _ _ hndr h i hmem di si hdi hsi

theorem processGroup_ok_spec {p mode : ℕ} {dt : ℚ} {npts : ℕ} {P : ℤ}
    {st : GroupState} {g : String} {st' : GroupState}
    (h : processGroup p mode dt npts P st g = .ok st') :
    st'.d.map obsKey = st.d.map obsKey ∧
    st'.s.map SynTrace.data = st.s.map SynTrace.data ∧
    st'.total = st.total + groupSum p mode dt npts P st.d st.s g :=
  writeRecords_ok_spec _ _ _ h

theorem processGroups_ok_spec {p mode : ℕ} {dt : ℚ} {npts : ℕ} {P : ℤ} :
    ∀ (gs : List String) (st st' : GroupState),
      processGroups p mode dt npts P gs st = .ok st' →
      st'.d.map obsKey = st.d.map obsKey ∧
      st'.s.map SynTrace.data = st.s.map SynTrace.data ∧
      st'.total = st.total + (gs.map (groupSum p mode dt npts P st.d st.s)).sum := by
  intro gs
  induction gs with
  | nil =>
    intro st st' h
    unfold processGroups at h
    cases h
    simp
  | cons g rest ih =>
    intro st st' h
    unfold processGroups at h
    cases hg : processGroup p mode dt npts P st g with
    | error e => rw [hg] at h; cases h
    | ok st1 =>
      rw [hg] at h
      simp only [] at h
      obtain ⟨hd1, hs1, ht1⟩ := processGroup_ok_spec hg
      obtain ⟨hd2, hs2, ht2⟩ := ih _ _ h
      refine ⟨hd2.trans hd1, hs2.trans hs1, ?_⟩
      rw [ht2, ht1]
      have htail : rest.map (groupSum p mode dt npts P st1.d st1.s)
          = rest.map (groupSum p mode dt npts P st.d st.s) :=
        List.map_congr_left (fun g' _ => groupSum_congr hd1 hs1 g')
      rw [htail, List.map_cons, List.sum_cons]
      ring

theorem processStation_ok_total {m : Misfit} {d : ObsStation} {s : List SynTrace}
    {r : StationResult} (h : processStation m d s = .ok r) :
    r.total = stationSum m d s := by
  unfold processStation at h
  cases h0 : d.traces.head? with
  | none => rw [h0] at h; cases s.head? <;> simp only [] at h <;> cases h
  | some d0 =>
    rw [h0] at h
    cases hs0 : s.head? with
    | none => rw [hs0] at h; simp only [] at h; cases h
    | some s0 =>
      rw [hs0] at h
      simp only [] at h
      cases hp : padStep d0.data.length (pythonRound (m.time_shift_max / d0.delta)) s
          s0.data.length with
      | error e => rw [hp] at h; simp only [] at h; cases h
      | ok pr =>
        obtain ⟨s1, warned⟩ := pr
        rw [hp] at h
        simp only [] at h
        cases hg : processGroups m.order
            (match d.time_shift_mode with
              | some mo => mo
              | none => decideMode d0.data.length (pythonRound (m.time_shift_max / d0.delta)))
            d0.delta d0.data.length (pythonRound (m.time_shift_max / d0.delta))
            m.time_shift_groups ⟨d.traces, s1, 0⟩ with
        | error e => rw [hg] at h; simp only [] at h; cases h
        | ok st =>
          rw [hg] at h
          simp only [] at h
          by_cases hpol : m.polarity_weight > 0
          · rw [if_pos hpol] at h; cases h
          · rw [if_neg hpol] at h
            cases h
            obtain ⟨_, _, ht⟩ := processGroups_ok_spec _ _ _ hg
            unfold stationSum
            rw [h0, hs0]
            simp only []
            rw [hp]
            simp only []
            rw [ht]
            simp

theorem processStations_ok_total {m : Misfit} :
    ∀ (pairs : List (ObsStation × List SynTrace)) out,
      processStations m pairs = .ok out →
      out.2.2.1 = (pairs.map (fun pr => stationSum m pr.1 pr.2)).sum := by
  intro pairs
  induction pairs with
  | nil =>
    intro out h
    unfold processStations at h
    cases h
    simp
  | cons pr rest ih =>
    intro out h
    obtain ⟨dp, sp⟩ := pr
    unfold processStations at h
    cases hps : processStation m dp sp with
    | error e => rw [hps] at h; cases h
    | ok rr =>
      rw [hps] at h
      simp only [] at h
      cases hrest : processStations m rest with
      | error e => rw [hrest] at h; cases h
      | ok out' =>
        rw [hrest] at h
        simp only [] at h
        obtain ⟨ds, ss, t, w⟩ := out'
        cases h
        have := ih _ hrest
        simp only [] at this
        simp only [List.map_cons, List.sum_cons]
        rw [processStation_ok_total hps, this]

theorem call_ok_total {m : Misfit} {data : List ObsStation} {syn : List (List SynTrace)}
    {r : CallResult} (h : Misfit.call m data syn = .ok r) :
    r.total = callSum m data syn := by
  unfold Misfit.call at h
  cases hps : processStations m (data.zip syn) with
  | error e => rw [hps] at h; cases h
  | ok out =>
    rw [hps] at h
    obtain ⟨ds, ss, t, w⟩ := out
    simp only [] at h
    cases h
    exact processStations_ok_total _ _ hps


/-! Claim C1: the accumulation formula and nonnegativity of the result. -/

theorem recTerm_nonneg {p : ℕ} {dt : ℚ} {a b : ℤ} {d : List ObsTrace} {s : List SynTrace}
    (hw : ∀ t ∈ d, 0 ≤ t.weight.getD 0) (hdt : 0 ≤ dt) (i : ℕ) :
    0 ≤ recTerm p dt a b d s i := by
  unfold recTerm
  split
  next di si hdi hsi =>
    have h1 : 0 ≤ di.weight.getD 0 := hw di (List.getElem?_mem hdi)
    have h2 : 0 ≤ residualNorm p dt (vecSub (pySlice si.data a b) di.data) := by
      unfold residualNorm
      apply mul_nonneg _ hdt
      apply List.sum_nonneg
      intro x hx
      simp only [List.mem_map] at hx
      obtain ⟨y, _, hy⟩ := hx
      rw [← hy]
      positivity
    exact mul_nonneg h1 h2
  next => exact le_refl 0

theorem groupSum_nonneg {p mode : ℕ} {dt : ℚ} {npts : ℕ} {P : ℤ}
    {d : List ObsTrace} {s : List SynTrace}
    (hw : ∀ t ∈ d, 0 ≤ t.weight.getD 0) (hdt : 0 ≤ dt) (g : String) :
    0 ≤ groupSum p mode dt npts P d s g := by
  unfold groupSum
  apply List.sum_nonneg
  intro x hx
  simp only [List.mem_map] at hx
  obtain ⟨i, _, hi⟩ := hx
  rw [← hi]
  exact recTerm_nonneg hw hdt i

theorem stationSum_nonneg {m : Misfit} {d : ObsStation} {s : List SynTrace}
    (hw : ∀ t ∈ d.traces, 0 ≤ t.weight.getD 0)
    (hdt : ∀ t ∈ d.traces, 0 ≤ t.delta) : 0 ≤ stationSum m d s := by
  unfold stationSum
  split
  next d0 s0 h0 hs0 =>
    have hd0 : 0 ≤ d0.delta := hdt d0 (List.mem_of_mem_head? (by rw [h0]; simp))
    split
    next s1 w hp =>
      apply List.sum_nonneg
      intro x hx
      simp only [List.mem_map] at hx
      obtain ⟨g, _, hg⟩ := hx
      rw [← hg]
      exact groupSum_nonneg hw hd0 g
    next => exact le_refl 0
  next => exact le_refl 0

theorem callSum_nonneg {m : Misfit} {data : List ObsStation} {syn : List (List SynTrace)}
    (hw : ∀ st ∈ data, ∀ t ∈ st.traces, 0 ≤ t.weight.getD 0)
    (hdt : ∀ st ∈ data, ∀ t ∈ st.traces, 0 ≤ t.delta) : 0 ≤ callSum m data syn := by
  unfold callSum
  apply List.sum_nonneg
  intro x hx
  simp only [List.mem_map] at hx
  obtain ⟨pr, hpr, he⟩ := hx
  obtain ⟨d1, s1⟩ := pr
  rw [← he]
  have hmem := (List.of_mem_zip hpr).1
  exact stationSum_nonneg (hw _ hmem) (hdt _ hmem)

/-- C1: over stations whose records all carry nonnegative weights (and
nonnegative sampling intervals), a successful evaluation's accumulated
total equals the direct sum, over all stations and all contributing
records, of `weight * sum_residuals` with
`sum_residuals = (Σ |aligned synthetic slice - observed data| ^ p) * dt`
(`callSum`), and the value the call returns, `total ** (1/p)`, is a
nonnegative scalar (finiteness is inherent to the exact model: every value
is a genuine rational/real number). -/
theorem claim_C1 (m : Misfit) (data : List ObsStation) (syn : List (List SynTrace))
    (hw : ∀ st ∈ data, ∀ t ∈ st.traces, ∃ w, t.weight = some w ∧ 0 ≤ w)
    (hdt : ∀ st ∈ data, ∀ t ∈ st.traces, 0 ≤ t.delta)
    (r : CallResult) (hok : Misfit.call m data syn = .ok r) :
    r.total = callSum m data syn ∧ 0 ≤ r.total ∧
    (r.total : ℝ) ^ ((1 : ℝ) / (m.order : ℝ))
      = ((callSum m data syn : ℚ) : ℝ) ^ ((1 : ℝ) / (m.order : ℝ)) ∧
    0 ≤ (r.total : ℝ) ^ ((1 : ℝ) / (m.order : ℝ)) := by
  have hw' : ∀ st ∈ data, ∀ t ∈ st.traces, 0 ≤ t.weight.getD 0 := by
    intro st hst t ht
    obtain ⟨w, hweq, hwnn⟩ := hw st hst t ht
    rw [hweq]
    exact hwnn
  have heq := call_ok_total hok
  have hnn : 0 ≤ r.total := heq ▸ callSum_nonneg hw' hdt
  refine ⟨heq, hnn, by rw [heq], ?_⟩
  apply Real.rpow_nonneg
  exact_mod_cast hnn

/-- Witness for C1: a one-station, one-record evaluation with unit weight;
the accumulated total is `1`. -/
theorem claim_C1_witness :
    (⟨[⟨[⟨[1, 2], 1, "Z", some 1, some 1, none, none, none, none⟩], some 0⟩],
      [[⟨[1, 1], some 0, some "ZRT", some 0, some 2⟩]], 1, false⟩ : CallResult).total
      = callSum ⟨1, 0, ["ZRT"], 0⟩
          [⟨[⟨[1, 2], 1, "Z", some 1, none, none, none, none, none⟩], none⟩]
          [[⟨[1, 1], none, none, none, none⟩]] ∧
    0 ≤ (⟨[⟨[⟨[1, 2], 1, "Z", some 1, some 1, none, none, none, none⟩], some 0⟩],
      [[⟨[1, 1], some 0, some "ZRT", some 0, some 2⟩]], 1, false⟩ : CallResult).total :=
  have h := claim_C1 ⟨1, 0, ["ZRT"], 0⟩
    [⟨[⟨[1, 2], 1, "Z", some 1, none, none, none, none, none⟩], none⟩]
    [[⟨[1, 1], none, none, none, none⟩]]
    (by simp)
    (by simp)
    ⟨[⟨[⟨[1, 2], 1, "Z", some 1, some 1, none, none, none, none⟩], some 0⟩],
      [[⟨[1, 1], some 0, some "ZRT", some 0, some 2⟩]], 1, false⟩
    (by decide)
  ⟨h.1, h.2.1⟩


/-! Claim C10: alignment-slice safety. -/

/-- C10: after padding validation (synthetic traces of length
`npts + 2 * npts_padding`, observed traces of length `npts`), the group's
chosen lag `argmax` lies in `[0, 2P]`, so `start = 2P - argmax` and
`stop = start + npts` satisfy `0 ≤ start ≤ stop ≤ npts_syn`, and the
aligned synthetic slice has exactly `npts` samples, making the elementwise
residual subtraction well-defined (never silently truncated). -/
theorem claim_C10 (mode npts : ℕ) (P : ℤ) (st : GroupState) (g : String)
    (hP : 0 ≤ P)
    (hs : ∀ t ∈ st.s, t.data.length = npts + 2 * P.toNat)
    (hd : ∀ t ∈ st.d, t.data.length = npts) :
    ((groupLag mode st.d st.s P g : ℤ) ≤ 2 * P) ∧
    (0 ≤ 2 * P - (groupLag mode st.d st.s P g : ℤ)) ∧
    (2 * P - (groupLag mode st.d st.s P g : ℤ)
      ≤ 2 * P - (groupLag mode st.d st.s P g : ℤ) + npts) ∧
    (2 * P - (groupLag mode st.d st.s P g : ℤ) + npts ≤ (npts : ℤ) + 2 * P) ∧
    (∀ i ∈ selectIndices st.d g, ∀ di, st.d[i]? = some di → ∀ si, st.s[i]? = some si →
      (pySlice si.data (2 * P - (groupLag mode st.d st.s P g : ℤ))
        (2 * P - (groupLag mode st.d st.s P g : ℤ) + npts)).length = npts ∧
      (vecSub (pySlice si.data (2 * P - (groupLag mode st.d st.s P g : ℤ))
        (2 * P - (groupLag mode st.d st.s P g : ℤ) + npts)) di.data).length = npts) := by
  have hlen : (groupProfile mode st.d st.s (selectIndices st.d g) (2 * P + 1).toNat).length
      ≤ (2 * P + 1).toNat := groupProfile_length_le mode st.d st.s _ _
  have hklen : groupLag mode st.d st.s P g ≤ 2 * P.toNat := by
    apply argmax_le_of_length_le
    omega
  have hk : (groupLag mode st.d st.s P g : ℤ) ≤ 2 * P := by omega
  refine ⟨hk, by omega, by omega, by omega, ?_⟩
  intro i _ di hdi si hsi
  have hsd : si.data.length = npts + 2 * P.toNat := hs si (List.getElem?_mem hsi)
  have hdd : di.data.length = npts := hd di (List.getElem?_mem hdi)
  have hslice : (pySlice si.data (2 * P - (groupLag mode st.d st.s P g : ℤ))
      (2 * P - (groupLag mode st.d st.s P g : ℤ) + npts)).length = npts := by
    unfold pySlice
    rw [List.length_drop, List.length_take, hsd]
    omega
  refine ⟨hslice, ?_⟩
  unfold vecSub
  rw [List.length_zipWith, hslice, hdd]
  exact Nat.min_self npts

/-- Witness for C10 at a concrete station: `npts = 2`, `P = 1`, padded
synthetic of length 4; the chosen lag is in range and the slice has
exactly 2 samples. -/
theorem claim_C10_witness :
    ((groupLag 2 [⟨[1, 2], 1, "Z", some 1, none, none, none, none, none⟩]
        [⟨[1, 2, 3, 4], none, none, none, none⟩] 1 "ZRT" : ℤ) ≤ 2 * 1) ∧
    (pySlice [1, 2, 3, 4]
      (2 * 1 - (groupLag 2 [⟨[1, 2], 1, "Z", some 1, none, none, none, none, none⟩]
        [⟨[1, 2, 3, 4], none, none, none, none⟩] 1 "ZRT" : ℤ))
      (2 * 1 - (groupLag 2 [⟨[1, 2], 1, "Z", some 1, none, none, none, none, none⟩]
        [⟨[1, 2, 3, 4], none, none, none, none⟩] 1 "ZRT" : ℤ) + 2)).length = 2 :=
  have h := claim_C10 2 2 1
    ⟨[⟨[1, 2], 1, "Z", some 1, none, none, none, none, none⟩],
     [⟨[1, 2, 3, 4], none, none, none, none⟩], 0⟩ "ZRT"
    (by decide) (by decide) (by decide)
  ⟨h.1, (h.2.2.2.2 0 (by decide) ⟨[1, 2], 1, "Z", some 1, none, none, none, none, none⟩
    (by decide) ⟨[1, 2, 3, 4], none, none, none, none⟩ (by decide)).1⟩

/-! Claim C6: the chosen lag is the first maximizer of the summed profile. -/

/-- C6: for every time-shift group, the chosen lag index is the first
(smallest) index attaining the maximum of the summed correlation profile
(strictly greater than every earlier entry, at least as large as every
entry), an all-equal profile yields index `0`, and the time shift recorded
on the selected records is `(argmax - npts_padding) * dt`. -/
theorem claim_C6 (p mode : ℕ) (dt : ℚ) (npts : ℕ) (P : ℤ) (st st' : GroupState)
    (g : String) (hok : processGroup p mode dt npts P st g = .ok st') :
    (∀ (hk : groupLag mode st.d st.s P g <
        (groupProfile mode st.d st.s (selectIndices st.d g) (2 * P + 1).toNat).length)
      (j : ℕ) (hj : j < (groupProfile mode st.d st.s (selectIndices st.d g)
        (2 * P + 1).toNat).length),
      (groupProfile mode st.d st.s (selectIndices st.d g) (2 * P + 1).toNat)[j]
        ≤ (groupProfile mode st.d st.s (selectIndices st.d g) (2 * P + 1).toNat)[
            groupLag mode st.d st.s P g] ∧
      (j < groupLag mode st.d st.s P g →
        (groupProfile mode st.d st.s (selectIndices st.d g) (2 * P + 1).toNat)[j]
          < (groupProfile mode st.d st.s (selectIndices st.d g) (2 * P + 1).toNat)[
              groupLag mode st.d st.s P g])) ∧
    ((∃ c, ∀ x ∈ groupProfile mode st.d st.s (selectIndices st.d g) (2 * P + 1).toNat,
        x = c) → groupLag mode st.d st.s P g = 0) ∧
    (∀ i ∈ selectIndices st.d g, ∀ si, st'.s[i]? = some si →
      si.time_shift = some (((groupLag mode st.d st.s P g : ℤ) - P) * dt)) := by
  refine ⟨?_, ?_, ?_⟩
  · intro hk j hj
    exact ⟨getElem_le_argmax hj hk, fun hjk => getElem_lt_of_lt_argmax hj hjk hk⟩
  · rintro ⟨c, hc⟩
    exact argmax_of_all_eq hc
  · intro i hi si hsi'
    cases hs : st.s[i]? with
    | none =>
      obtain ⟨_, hsmap, _⟩ := processGroup_ok_spec hok
      have hslen : st'.s.length = st.s.length := length_eq_of_map_eq hsmap
      have : st.s.length ≤ i := List.getElem?_eq_none_iff.mp hs
      have : st'.s[i]? = none := List.getElem?_eq_none_iff.mpr (by omega)
      rw [hsi'] at this
      cases this
    | some si0 =>
      obtain ⟨t, hdi, _⟩ := mem_selectIndices.mp hi
      have hwr := writeRecords_written (selectIndices st.d g) st st'
        (selectIndices_nodup st.d g) hok i hi t si0 hdi hs
      rw [hwr.1] at hsi'
      cases hsi'
      rfl

/-- Witness for C6: a concrete single-record group in mode 0; the recorded
time shift is `(0 - 0) * 1`. -/
theorem claim_C6_witness :
    (⟨[1], some 0, some "ZRT", some 0, some 1⟩ : SynTrace).time_shift
      = some (((groupLag 0 [⟨[1], 1, "Z", some 1, none, none, none, none, none⟩]
          [⟨[1], none, none, none, none⟩] 0 "ZRT" : ℤ) - 0) * 1) :=
  (claim_C6 1 0 1 1 0
    ⟨[⟨[1], 1, "Z", some 1, none, none, none, none, none⟩],
     [⟨[1], none, none, none, none⟩], 0⟩
    ⟨[⟨[1], 1, "Z", some 1, some 0, none, none, none, none⟩],
     [⟨[1], some 0, some "ZRT", some 0, some 1⟩], 0⟩
    "ZRT" (by decide)).2.2 0 (by decide)
    ⟨[1], some 0, some "ZRT", some 0, some 1⟩ (by decide)

/-! Claim C7: which derived fields are written, and onto which records. -/

/-- Counterexample to C7 as stated: on a successful one-record evaluation
the observation record receives only `sum_residuals`; `time_shift`,
`time_shift_group`, `start`, `stop` stay unset on it (they are written to
the synthetic record instead), so the observation records do not carry all
five derived fields. -/
theorem claim_C7_counterexample :
    (Misfit.call ⟨1, 0, ["ZRT"], 0⟩
      [⟨[⟨[1, 2], 1, "Z", some 1, none, none, none, none, none⟩], none⟩]
      [[⟨[1, 1], none, none, none, none⟩]]).map
        (fun r => r.data.map (fun st => st.traces.map
          (fun t => (t.sum_residuals, t.time_shift, t.time_shift_group, t.start, t.stop))))
    = .ok [[(some 1, none, none, none, none)]] := by decide

/-- C7 (amended): after a successful evaluation, every record selected for
a group (nonzero weight, component in the group) has `time_shift`,
`time_shift_group`, `start`, `stop` written onto its synthetic record —
the same four values for every record of the group — and `sum_residuals`
written onto its observation record.  (The claim's "in place, no copy" is
Python aliasing, outside this embedding; unselected records are settled by
C5.) -/
theorem claim_C7 (p mode : ℕ) (dt : ℚ) (npts : ℕ) (P : ℤ) (st st' : GroupState)
    (g : String) (hok : processGroup p mode dt npts P st g = .ok st') :
    ∀ i ∈ selectIndices st.d g, ∀ di si, st.d[i]? = some di → st.s[i]? = some si →
      st'.s[i]? = some { si with
        time_shift := some (((groupLag mode st.d st.s P g : ℤ) - P) * dt)
        time_shift_group := some g
        start := some (2 * P - (groupLag mode st.d st.s P g : ℤ))
        stop := some (2 * P - (groupLag mode st.d st.s P g : ℤ) + npts) } ∧
      st'.d[i]? = some { di with
        sum_residuals := some (residualNorm p dt (vecSub (pySlice si.data
          (2 * P - (groupLag mode st.d st.s P g : ℤ))
          (2 * P - (groupLag mode st.d st.s P g : ℤ) + npts)) di.data)) } :=
  fun i hi di si hdi hsi =>
    writeRecords_written (selectIndices st.d g) st st' (selectIndices_nodup st.d g)
      hok i hi di si hdi hsi

/-- Witness for C7 on the concrete single-record group. -/
theorem claim_C7_witness :
    (⟨[⟨[1], 1, "Z", some 1, some 0, none, none, none, none⟩],
      [⟨[1], some 0, some "ZRT", some 0, some 1⟩], 0⟩ : GroupState).s[0]?
      = some { (⟨[1], none, none, none, none⟩ : SynTrace) with
          time_shift := some (((groupLag 0 [⟨[1], 1, "Z", some 1, none, none, none, none, none⟩]
            [⟨[1], none, none, none, none⟩] 0 "ZRT" : ℤ) - 0) * 1)
          time_shift_group := some "ZRT"
          start := some (2 * 0 - (groupLag 0 [⟨[1], 1, "Z", some 1, none, none, none, none, none⟩]
            [⟨[1], none, none, none, none⟩] 0 "ZRT" : ℤ))
          stop := some (2 * 0 - (groupLag 0 [⟨[1], 1, "Z", some 1, none, none, none, none, none⟩]
            [⟨[1], none, none, none, none⟩] 0 "ZRT" : ℤ) + 1) } :=
  (claim_C7 1 0 1 1 0
    ⟨[⟨[1], 1, "Z", some 1, none, none, none, none, none⟩],
     [⟨[1], none, none, none, none⟩], 0⟩
    ⟨[⟨[1], 1, "Z", some 1, some 0, none, none, none, none⟩],
     [⟨[1], some 0, some "ZRT", some 0, some 1⟩], 0⟩
    "ZRT" (by decide) 0 (by decide)
    ⟨[1], 1, "Z", some 1, none, none, none, none, none⟩
    ⟨[1], none, none, none, none⟩ (by decide) (by decide)).1

/-! Claim C5: zero-weight records. -/

/-- Counterexample to C5 as stated: a zero-weight record is skipped
entirely — after a successful evaluation its synthetic record carries no
alignment metadata at all (`time_shift`, `time_shift_group`, `start`,
`stop` all unset), contrary to the claim that it still receives the
group's alignment metadata. -/
theorem claim_C5_counterexample :
    (Misfit.call ⟨1, 0, ["ZRT"], 0⟩
      [⟨[⟨[1], 1, "Z", some 0, none, none, none, none, none⟩], none⟩]
      [[⟨[1], none, none, none, none⟩]]).map
        (fun r => r.synthetics.map (fun s => s.map
          (fun t => (t.time_shift, t.time_shift_group, t.start, t.stop))))
    = .ok [[(none, none, none, none)]] := by decide

theorem groupProfile_set_not_mem {mode : ℕ} {d : List ObsTrace} {s : List SynTrace}
    {i : ℕ} (x : ObsTrace) (y : SynTrace) :
    ∀ (idxs : List ℕ), i ∉ idxs → ∀ (plen : ℕ),
      groupProfile mode (d.set i x) (s.set i y) idxs plen = groupProfile mode d s idxs plen := by
  intro idxs hi plen
  unfold groupProfile
  suffices h : ∀ acc, idxs.foldl (profileStep mode (d.set i x) (s.set i y)) acc
      = idxs.foldl (profileStep mode d s) acc from h (zeros plen)
  induction idxs with
  | nil => intro acc; rfl
  | cons j rest ih =>
    intro acc
    have hji : i ≠ j := fun he => hi (he ▸ List.mem_cons_self j rest)
    have hir : i ∉ rest := fun hm => hi (List.mem_cons_of_mem j hm)
    rw [List.foldl_cons, List.foldl_cons]
    have hstep : profileStep mode (d.set i x) (s.set i y) acc j = profileStep mode d s acc j := by
      unfold profileStep
      rw [List.getElem?_set_ne hji, List.getElem?_set_ne hji]
    rw [hstep]
    exact ih hir _

/-- C5 (amended): a record with weight `0` is excluded from the group's
index set, so it contributes neither to the lag-correlation profile
(replacing its samples changes nothing) nor to the accumulated total
(which sums over the selected indices only), and — contrary to the
original claim — it receives no alignment metadata: its observation and
synthetic records are left exactly as they were. -/
theorem claim_C5 (p mode : ℕ) (dt : ℚ) (npts : ℕ) (P : ℤ) (st st' : GroupState)
    (g : String) (i : ℕ) (di : ObsTrace)
    (hdi : st.d[i]? = some di) (hw : di.weight = some 0)
    (hok : processGroup p mode dt npts P st g = .ok st') :
    i ∉ selectIndices st.d g ∧
    st'.d[i]? = st.d[i]? ∧ st'.s[i]? = st.s[i]? ∧
    (∀ (x : ObsTrace) (y : SynTrace) (plen : ℕ),
      groupProfile mode (st.d.set i x) (st.s.set i y) (selectIndices st.d g) plen
        = groupProfile mode st.d st.s (selectIndices st.d g) plen) ∧
    st'.total = st.total + groupSum p mode dt npts P st.d st.s g := by
  have hni : i ∉ selectIndices st.d g := by
    intro hmem
    obtain ⟨t, ht, hsel⟩ := mem_selectIndices.mp hmem
    rw [hdi] at ht
    cases ht
    unfold selected at hsel
    simp [hw] at hsel
  obtain ⟨h1, h2⟩ := writeRecords_not_mem (selectIndices st.d g) st st' hok i hni
  exact ⟨hni, h1, h2, fun x y plen => groupProfile_set_not_mem x y _ hni plen,
    (processGroup_ok_spec hok).2.2⟩

/-- Witness for C5: concrete zero-weight record; the group leaves state and
records untouched. -/
theorem claim_C5_witness :
    (0 ∉ selectIndices [⟨[1], 1, "Z", some 0, none, none, none, none, none⟩] "ZRT") ∧
    groupProfile 0
      ([⟨[1], 1, "Z", some 0, none, none, none, none, none⟩].set 0
        ⟨[9], 1, "Z", some 0, none, none, none, none, none⟩)
      ([⟨[1], none, none, none, none⟩].set 0 ⟨[9], none, none, none, none⟩)
      (selectIndices [⟨[1], 1, "Z", some 0, none, none, none, none, none⟩] "ZRT") 1
    = groupProfile 0 [⟨[1], 1, "Z", some 0, none, none, none, none, none⟩]
        [⟨[1], none, none, none, none⟩]
        (selectIndices [⟨[1], 1, "Z", some 0, none, none, none, none, none⟩] "ZRT") 1 :=
  have h := claim_C5 1 0 1 1 0
    ⟨[⟨[1], 1, "Z", some 0, none, none, none, none, none⟩],
     [⟨[1], none, none, none, none⟩], 0⟩
    ⟨[⟨[1], 1, "Z", some 0, none, none, none, none, none⟩],
     [⟨[1], none, none, none, none⟩], 0⟩
    "ZRT" 0 ⟨[1], 1, "Z", some 0, none, none, none, none, none⟩
    (by decide) rfl (by decide)
  ⟨h.1, h.2.2.2.1 ⟨[9], 1, "Z", some 0, none, none, none, none, none⟩
    ⟨[9], none, none, none, none⟩ 1⟩

end Mtuq
